import Mathlib

/-!
Verification of the job-control shell in `src/lab.c`.

The C program is shallowly embedded: the global job array and the
`next_job_id` counter become a `JobTable` value threaded explicitly;
C strings become `List Char` or `String` (a `NULL` pointer becomes
`none` of an `Option`); the OS environment (process exit observation,
`getenv`, `chdir`, `getcwd`, the user database) is abstracted as
explicit function parameters; `printf`/`perror` output becomes lists of
emitted lines or structured line values.
-/

namespace ShellLab

/-- One slot of the global `jobs` array (struct job, lab.c lines 33-39).
A slot is empty exactly when `job_id = 0`; an empty slot's `command`
pointer is `NULL`, modelled as `none`. -/
structure Job where
  job_id : Int
  pid : Int
  command : Option String
  is_background : Bool
  is_done : Bool
deriving Repr, DecidableEq

/-- MAX_JOBS (lab.c line 28). -/
def MAX_JOBS : Nat := 100

/-- The slot value written by `initialize_jobs` and by `remove_job`:
id 0, pid 0, `NULL` command, both flags false. -/
def emptyJob : Job :=
  { job_id := 0, pid := 0, command := none, is_background := false, is_done := false }

/-- The mutable global state of the job subsystem: the `jobs` array
(lab.c line 41) together with the `next_job_id` counter (line 42). -/
structure JobTable where
  jobs : List Job
  next_job_id : Int
deriving Repr, DecidableEq

/-- State after `initialize_jobs()` (lab.c lines 49-57) with the
counter at its initial value 1 (line 42). -/
def initTable : JobTable :=
  { jobs := List.replicate MAX_JOBS emptyJob, next_job_id := 1 }

/-- The scan loop of `add_job` (lab.c lines 68-77): find the first slot
with `job_id = 0` and overwrite it; `none` when no slot is free. -/
def addJobAux (next pid : Int) (command : String) (is_background : Bool) :
    List Job → Option (List Job)
  | [] => none
  | j :: rest =>
    if j.job_id = 0 then
      some ({ job_id := next, pid := pid, command := some command,
              is_background := is_background, is_done := false } :: rest)
    else
      (addJobAux next pid command is_background rest).map (j :: ·)

/-- Embedding of `add_job` (lab.c lines 67-79): returns the assigned id (the old
`next_job_id`, which is then incremented) and the new table, or `-1`
with the table unchanged when every slot is occupied. -/
def add_job (pid : Int) (command : String) (is_background : Bool)
    (t : JobTable) : Int × JobTable :=
  match addJobAux t.next_job_id pid command is_background t.jobs with
  | some js => (t.next_job_id, { jobs := js, next_job_id := t.next_job_id + 1 })
  | none => (-1, t)

/-- The scan loop of `remove_job` (lab.c lines 87-97): reset the first
slot whose `job_id` matches, then `break`; later slots untouched. -/
def removeJobAux (job_id : Int) : List Job → List Job
  | [] => []
  | j :: rest =>
    if j.job_id = job_id then emptyJob :: rest
    else j :: removeJobAux job_id rest

/-- Embedding of `remove_job` (lab.c lines 86-98). -/
def remove_job (job_id : Int) (t : JobTable) : JobTable :=
  { jobs := removeJobAux job_id t.jobs, next_job_id := t.next_job_id }

/-- One printed line of the job subsystem: `[<id>] Done <command>`
(printf at lab.c lines 112 and 127) or `[<id>] <pid> Running <command>`
(line 129), kept structured so that the id of a line is exact. -/
inductive JobLine where
  | done (id : Int) (command : Option String)
  | running (id : Int) (pid : Int) (command : Option String)
deriving Repr, DecidableEq

/-- The job id a line reports. -/
def JobLine.jid : JobLine → Int
  | .done i _ => i
  | .running i _ _ => i

/-- The slot test of `update_job_status` (lab.c lines 107-110): the slot
is occupied, not yet done, and the non-blocking `waitpid` poll reports
the process as exited (`exited` abstracts which pids have exited). -/
def shouldMark (exited : Int → Bool) (j : Job) : Bool :=
  j.job_id != 0 && !j.is_done && exited j.pid

/-- The body of `update_job_status` on one slot (lab.c lines 107-113). -/
def markDone (exited : Int → Bool) (j : Job) : Job :=
  if shouldMark exited j then { j with is_done := true } else j

/-- The loop of `update_job_status` (lab.c lines 106-115): slots in
order, emitting a `Done` notice for each slot it marks. -/
def updateJobsAux (exited : Int → Bool) : List Job → List Job × List JobLine
  | [] => ([], [])
  | j :: rest =>
    let r := updateJobsAux exited rest
    if shouldMark exited j then
      ({ j with is_done := true } :: r.1, JobLine.done j.job_id j.command :: r.2)
    else
      (j :: r.1, r.2)

/-- Embedding of `update_job_status` (lab.c lines 105-116): new table plus the
completion notices printed, in slot order. -/
def update_job_status (exited : Int → Bool) (t : JobTable) :
    JobTable × List JobLine :=
  let r := updateJobsAux exited t.jobs
  ({ jobs := r.1, next_job_id := t.next_job_id }, r.2)

/-- Embedding of `print_jobs` (lab.c lines 123-133): one line per occupied slot, in
slot-scan order. -/
def print_jobs (t : JobTable) : List JobLine :=
  t.jobs.filterMap fun j =>
    if j.job_id ≠ 0 then
      some (if j.is_done then JobLine.done j.job_id j.command
            else JobLine.running j.job_id j.pid j.command)
    else none

/-- The ids of the occupied slots, in slot order. -/
def slotIds (js : List Job) : List Int :=
  (js.filter fun j => j.job_id ≠ 0).map Job.job_id

/-- The ids of the occupied slots of a table. -/
def occupiedIds (t : JobTable) : List Int :=
  slotIds t.jobs

/-- Embedding of `get_prompt` (lab.c lines 144-150); `getenvFn` abstracts `getenv`,
the result string is the (freshly `strdup`-ed) prompt. -/
def get_prompt (getenvFn : String → Option String) (env : String) : String :=
  match getenvFn env with
  | some custom_prompt => custom_prompt
  | none => "shell>"

/-- The `strtok` delimiter set of `cmd_parse` (lab.c lines 178 and 196):
space, tab, carriage return, newline, bell. -/
def isDelim (c : Char) : Bool :=
  c = ' ' || c = '\t' || c = '\r' || c = '\n' || c = '\x07'

/-- The stream of tokens the `strtok` calls of `cmd_parse` produce
(lab.c lines 178 and 196): skip delimiters; a token is a maximal run
of non-delimiter characters; continue after it. The line and the
tokens are `List Char`. -/
def strtokAll : List Char → List (List Char)
  | [] => []
  | c :: t =>
    if isDelim c then strtokAll t
    else (c :: t.takeWhile fun x => !isDelim x) ::
         strtokAll (t.dropWhile fun x => !isDelim x)
termination_by s => s.length
decreasing_by
  · simp only [List.length_cons]
    exact Nat.lt_succ_of_le (Nat.le_refl _)
  · simp only [List.length_cons]
    exact Nat.lt_succ_of_le (List.dropWhile_sublist _).length_le

/-- Embedding of `cmd_parse` (lab.c lines 158-201). The tokens are stored
into an array of `bufsize = 64` pointer slots (line 161) placed in one
block before the copied line text, so the line copy sits at byte
offset `64 * sizeof(char*)`. While fewer than 64 tokens are stored the
growth path never runs and the function returns exactly the `strtok`
token stream. Storing a 64th token triggers the growth path (lines
183-194), which enlarges the block and recomputes `buffer` to
`tokens + 128` although the copied line data stays at its old offset
inside the enlarged pointer array; the subsequent pointer-slot writes
(including the NULL terminator at line 198, and `tokens[64]` itself)
then overwrite live token text, and a moving `realloc` leaves every
already-stored token pointer and the `strtok` continuation pointer
dangling. The growth path's result is therefore corrupted and
allocator-dependent, modelled as `none`. -/
def cmd_parse (line : List Char) : Option (List (List Char)) :=
  if (strtokAll line).length < 64 then some (strtokAll line) else none

/-- C `isspace` in the default locale, as used by `trim_white`
(lab.c lines 225 and 232): space, tab, newline, vertical tab, form
feed, carriage return. -/
def isSpaceC (c : Char) : Bool :=
  c = ' ' || c = '\t' || c = '\n' || c = '\x0b' || c = '\x0c' || c = '\r'

/-- Embedding of `trim_white` (lab.c lines 221-238) on a non-NULL line: drop
leading spaces; if nothing is left return the empty string, else also
drop trailing spaces. -/
def trim_white (line : List Char) : List Char :=
  let s := line.dropWhile isSpaceC
  if s = [] then []
  else (s.reverse.dropWhile isSpaceC).reverse

/-- The builtin a handled command dispatches to (lab.c lines 256-289). -/
inductive BuiltinKind where
  | cd
  | history
  | pwd
  | ls
  | jobs
deriving Repr, DecidableEq

/-- Outcome of `do_builtin`: the `exit` branch terminates the process
(lab.c lines 253-255), a handled builtin returns `true` (modelled with
the builtin that ran), anything else returns `false`. -/
inductive BuiltinOutcome where
  | exitsShell
  | handled (k : BuiltinKind)
  | notHandled
deriving Repr, DecidableEq

/-- Embedding of the dispatch of `do_builtin` (lab.c lines 250-292). The
argument is `none` for a NULL `argv`; the first list element models
`argv[0]`, a missing second element models `argv[1] == NULL`. String
comparisons and their order follow the source: exit, cd, history, pwd,
ls (only with no further argument), jobs. -/
def do_builtin (argv : Option (List String)) : BuiltinOutcome :=
  match argv with
  | none => .notHandled
  | some args =>
    match args.head? with
    | none => .notHandled
    | some a0 =>
      if a0 = "exit" then .exitsShell
      else if a0 = "cd" then .handled .cd
      else if a0 = "history" then .handled .history
      else if a0 = "pwd" then .handled .pwd
      else if a0 = "ls" && args.get? 1 = none then .handled .ls
      else if a0 = "jobs" then .handled .jobs
      else .notHandled

/-- The test of the background-detection loop (lab.c line 312): the
token compares equal to "&", or is non-empty and its last character is
the ampersand; both cases are exactly "last character is the
ampersand". -/
def isAmpTok (t : List Char) : Bool :=
  t = ['&'] || (decide (0 < t.length) && t.getLast? = some '&')

/-- Embedding of the background-detection loop of `execute_command` (lab.c
lines 309-321): scan the argument vector in order; at the first token
whose last character is the ampersand, mark background and stop; a
literal "&" token is overwritten with NULL, truncating the vector
there, otherwise the ampersand is stripped off that token in place. -/
def detect_background : List (List Char) → Bool × List (List Char)
  | [] => (false, [])
  | a :: rest =>
    if a = ['&'] then (true, [])
    else if isAmpTok a then (true, a.dropLast :: rest)
    else
      let r := detect_background rest
      (r.1, a :: r.2)

/-- The OS environment `change_dir` consults (lab.c lines 374-406):
`getenv("HOME")`, the `pw_dir` of `getpwuid(getuid())` (`none` for a
NULL result), which `chdir` calls succeed, the absolute path `getcwd`
reports after a successful `chdir` to a target, whether that `getcwd`
call succeeds, and the current working directory. -/
structure DirEnv where
  home : Option String
  pwDir : Option String
  chdirOk : String → Bool
  resolve : String → String
  getcwdOk : String → Bool
  errnoMsg : String
  cwd : String

/-- Result of a `change_dir` call: the C return value, the lines
printed to standard output, the diagnostic lines (perror), and the
working directory afterwards. -/
structure CdResult where
  ret : Int
  out : List String
  err : List String
  cwd : String
deriving Repr, DecidableEq

/-- Target-directory resolution of `change_dir` (lab.c lines 377-391):
`argv[1]` when present; otherwise `HOME`; otherwise the home directory
from the user database; `none` when even that fails. -/
def cdTarget (env : DirEnv) (argv : List String) : Option String :=
  match argv.get? 1 with
  | some a => some a
  | none =>
    match env.home with
    | some h => some h
    | none => env.pwDir

/-- Embedding of `change_dir` (lab.c lines 374-406): resolve the target, then
`chdir`; on `chdir` failure perror and return -1 with the directory
unchanged; on success `getcwd` and print the new directory, or perror
and return -1 if `getcwd` fails. -/
def change_dir (env : DirEnv) (argv : List String) : CdResult :=
  match cdTarget env argv with
  | none =>
    { ret := -1, out := [],
      err := ["Failed to get home directory: " ++ env.errnoMsg],
      cwd := env.cwd }
  | some new_dir =>
    if env.chdirOk new_dir then
      let c := env.resolve new_dir
      if env.getcwdOk c then
        { ret := 0, out := ["Current directory: " ++ c], err := [], cwd := c }
      else
        { ret := -1, out := [], err := ["getcwd() error: " ++ env.errnoMsg],
          cwd := c }
    else
      { ret := -1, out := [], err := ["cd: " ++ env.errnoMsg], cwd := env.cwd }

/-- An operation on the job table, for reasoning about sequences of
`add_job` and `remove_job` calls. -/
inductive Op where
  | add (pid : Int) (command : String) (is_background : Bool)
  | remove (job_id : Int)

/-- Apply one operation to a table. -/
def step (t : JobTable) : Op → JobTable
  | .add p c b => (add_job p c b t).2
  | .remove i => remove_job i t

/-- Apply a sequence of operations to a table. -/
def runOps (t : JobTable) (ops : List Op) : JobTable :=
  ops.foldl step t

/-- The job ids handed out by the successful `add_job` calls of a
sequence of operations, in call order. -/
def assignedIds (t : JobTable) : List Op → List Int
  | [] => []
  | .add p c b :: rest =>
    let r := add_job p c b t
    if r.1 = -1 then assignedIds r.2 rest else r.1 :: assignedIds r.2 rest
  | .remove i :: rest => assignedIds (remove_job i t) rest

/-- Iterated calls of `update_job_status` (state only), for reasoning
about repeated polling passes of the session loop. -/
def updateIter (exited : Int → Bool) (t : JobTable) : Nat → JobTable
  | 0 => t
  | n + 1 => (update_job_status exited (updateIter exited t n)).1

/-- The job-table invariant maintained by every reachable state: the
counter is at least its initial value 1, every occupied slot's id is
positive and below the counter, and no two occupied slots share an
id. -/
def Inv (t : JobTable) : Prop :=
  1 ≤ t.next_job_id ∧ (∀ i ∈ occupiedIds t, 0 < i ∧ i < t.next_job_id) ∧
  (occupiedIds t).Nodup

/-! Helper lemmas about the job-table scan loops. -/

theorem addJobAux_none_of_full {js : List Job} (n p : Int) (c : String) (b : Bool)
    (h : ∀ j ∈ js, j.job_id ≠ 0) : addJobAux n p c b js = none := by
  induction js with
  | nil => rfl
  | cons j rest ih =>
    have hj := h j (List.mem_cons_self _ _)
    simp only [addJobAux, if_neg hj,
      ih fun x hx => h x (List.mem_cons_of_mem _ hx), Option.map_none']

theorem detect_background_no_amp {argv : List (List Char)}
    (h : ∀ x ∈ argv, isAmpTok x = false) : detect_background argv = (false, argv) := by
  induction argv with
  | nil => rfl
  | cons a rest ih =>
    have ha := h a (List.mem_cons_self _ _)
    have ha' : ¬a = ['&'] := by
      intro e
      subst e
      simp [isAmpTok] at ha
    simp only [detect_background, if_neg ha', ha, Bool.false_eq_true, if_false,
      ih fun x hx => h x (List.mem_cons_of_mem _ hx)]

/-! The claim theorems. -/

/-- C1: on a job table whose 100 slots are all occupied, `add_job`
returns the sentinel `-1` and leaves `next_job_id` and every slot
(id, pid, command, flags) unchanged. -/
theorem claim_C1 (t : JobTable) (p : Int) (c : String) (b : Bool)
    (hcap : t.jobs.length = MAX_JOBS)
    (hfull : ∀ j ∈ t.jobs, j.job_id ≠ 0) :
    add_job p c b t = (-1, t) := by
  simp only [add_job, addJobAux_none_of_full t.next_job_id p c b hfull]

/-- Witness for C1 at a concrete full table of 100 occupied slots. -/
theorem claim_C1_witness :
    add_job 7 "sleep 5 &" true
      ⟨List.replicate 100 ⟨1, 2, some "cmd", true, false⟩, 5⟩ =
      (-1, ⟨List.replicate 100 ⟨1, 2, some "cmd", true, false⟩, 5⟩) :=
  claim_C1 _ 7 "sleep 5 &" true (by decide) (by decide)

/-- C2 fails on the code: the background-detection loop of
`execute_command` scans every token and fires on the first token ending
in the ampersand, not only on a final one. On the vector
`["echo", "&", "foo"]` the final token is "foo", which neither is "&"
nor ends in the ampersand, yet the invocation is marked background (and
the vector is truncated at the "&"). -/
theorem claim_C2_counterexample :
    (detect_background ["echo".data, ['&'], "foo".data]).1 = true ∧
    (["echo".data, ['&'], "foo".data] : List (List Char)).getLast? = some "foo".data ∧
    "foo".data ≠ ['&'] ∧ "foo".data.getLast? ≠ some '&' := by
  decide

/-- C2 (amended): `execute_command` marks the invocation as background
exactly when some token (not necessarily the final one) ends in the
ampersand; the first such token controls the rewrite: the literal "&"
token is overwritten with NULL, truncating the vector at that position
and dropping any later tokens, while a longer token ending in the
ampersand has that character stripped in place with later tokens kept;
with no such token nothing changes. -/
theorem claim_C2_amended :
    (∀ (l₁ : List (List Char)) (a : List Char) (l₂ : List (List Char)),
      (∀ x ∈ l₁, isAmpTok x = false) → isAmpTok a = true →
      detect_background (l₁ ++ a :: l₂) =
        (true, if a = ['&'] then l₁ else l₁ ++ a.dropLast :: l₂)) ∧
    (∀ argv : List (List Char),
      (∀ x ∈ argv, isAmpTok x = false) → detect_background argv = (false, argv)) := by
  constructor
  · intro l₁ a l₂ h ha
    induction l₁ with
    | nil =>
      by_cases he : a = ['&']
      · simp [detect_background, he]
      · simp [detect_background, he, ha]
    | cons x l₁ ih =>
      have hx := h x (List.mem_cons_self _ _)
      have hx' : ¬x = ['&'] := by
        intro e
        subst e
        simp [isAmpTok] at hx
      have ih' := ih fun y hy => h y (List.mem_cons_of_mem _ hy)
      by_cases he : a = ['&'] <;>
        simp_all [detect_background, hx', hx]
  · intro argv h
    exact detect_background_no_amp h

/-- Witness for C2 (amended), exercising both conjuncts: stripping the
ampersand off a final "1&" token, truncating at a non-final literal
"&", and leaving an ampersand-free vector unchanged. -/
theorem claim_C2_witness :
    detect_background ["sleep".data, "1&".data] = (true, ["sleep".data, ['1']]) ∧
    detect_background ["echo".data, ['&'], "foo".data] = (true, ["echo".data]) ∧
    detect_background ["ls".data, "-la".data] = (false, ["ls".data, "-la".data]) := by
  refine ⟨?_, ?_, ?_⟩
  · have h := claim_C2_amended.1 ["sleep".data] "1&".data [] (by decide) (by decide)
    simp only [List.cons_append, List.nil_append] at h
    rw [h]
    decide
  · have h := claim_C2_amended.1 ["echo".data] ['&'] ["foo".data] (by decide) (by decide)
    simp only [List.cons_append, List.nil_append] at h
    rw [h]
    decide
  · exact claim_C2_amended.2 _ (by decide)

/-- C7: `ls` is handled as a builtin only when no further argument is
present; with any extra argument `do_builtin` returns not-handled, so
the caller falls through to external execution. -/
theorem claim_C7 :
    do_builtin (some ["ls"]) = .handled .ls ∧
    ∀ (extra : String) (rest : List String),
      do_builtin (some ("ls" :: extra :: rest)) = .notHandled := by
  refine ⟨rfl, fun extra rest => ?_⟩
  simp [do_builtin]

/-- C9: a NULL argument vector, or one whose first element is NULL,
makes `do_builtin` return false (not handled) without dispatching any
builtin. -/
theorem claim_C9 :
    do_builtin none = .notHandled ∧ do_builtin (some []) = .notHandled :=
  ⟨rfl, rfl⟩

/-- C10: `get_prompt` yields the environment variable's value when it
is set and the default "shell>" when it is not; in both cases a string
is returned (the model is total, mirroring that `strdup` of a non-NULL
argument is non-NULL). -/
theorem claim_C10 (g : String → Option String) (env : String) :
    (∀ v, g env = some v → get_prompt g env = v) ∧
    (g env = none → get_prompt g env = "shell>") := by
  constructor
  · intro v hv
    simp [get_prompt, hv]
  · intro hv
    simp [get_prompt, hv]

/-- Witness for C10: a set variable comes back verbatim, an unset one
falls back to the default. -/
theorem claim_C10_witness :
    get_prompt (fun _ => some "my> ") "MY_PROMPT" = "my> " ∧
    get_prompt (fun _ => none) "MY_PROMPT" = "shell>" :=
  ⟨(claim_C10 (fun _ => some "my> ") "MY_PROMPT").1 "my> " rfl,
   (claim_C10 (fun _ => none) "MY_PROMPT").2 rfl⟩

/-- C6: with no second argument `change_dir` resolves the target from
`HOME`, falling back to the user database's home directory when `HOME`
is unset; with an argument the target is that literal path; when
`chdir` fails the function reports the OS reason on the diagnostic
channel, returns -1 and leaves the working directory unchanged; when it
succeeds (and `getcwd` succeeds) it prints the new absolute working
directory as `Current directory: <cwd>` and returns 0. -/
theorem claim_C6 (env : DirEnv) (argv : List String) :
    (argv[1]? = none → cdTarget env argv = env.home.or env.pwDir) ∧
    (∀ a, argv[1]? = some a → cdTarget env argv = some a) ∧
    (∀ tgt, cdTarget env argv = some tgt → env.chdirOk tgt = false →
      change_dir env argv =
        { ret := -1, out := [], err := ["cd: " ++ env.errnoMsg], cwd := env.cwd }) ∧
    (∀ tgt, cdTarget env argv = some tgt → env.chdirOk tgt = true →
      env.getcwdOk (env.resolve tgt) = true →
      change_dir env argv =
        { ret := 0, out := ["Current directory: " ++ env.resolve tgt], err := [],
          cwd := env.resolve tgt }) := by
  refine ⟨?_, ?_, ?_, ?_⟩
  · intro h1
    cases hh : env.home with
    | none => simp [cdTarget, h1, hh, Option.or]
    | some h => simp [cdTarget, h1, hh, Option.or]
  · intro a h1
    simp [cdTarget, h1]
  · intro tgt htgt hfail
    simp [change_dir, htgt, hfail]
  · intro tgt htgt hok hcwd
    simp [change_dir, htgt, hok, hcwd]

/-- Witness for C6: concrete environments exercising the `HOME`
resolution, the literal-path resolution, a failing `chdir` leaving the
directory unchanged, and a successful `cd` printing the new
directory. -/
theorem claim_C6_witness :
    cdTarget ⟨some "/home/u", some "/pw/u", fun _ => true, id, fun _ => true, "e", "/tmp"⟩
        ["cd"] = some "/home/u" ∧
    cdTarget ⟨none, some "/pw/u", fun _ => true, id, fun _ => true, "e", "/tmp"⟩
        ["cd"] = some "/pw/u" ∧
    cdTarget ⟨some "/home/u", none, fun _ => true, id, fun _ => true, "e", "/tmp"⟩
        ["cd", "/lit"] = some "/lit" ∧
    change_dir ⟨some "/home/u", none, fun _ => false, id, fun _ => true,
        "No such file or directory", "/tmp"⟩ ["cd", "/nope"] =
      { ret := -1, out := [], err := ["cd: No such file or directory"], cwd := "/tmp" } ∧
    change_dir ⟨some "/home/u", none, fun _ => true, id, fun _ => true, "e", "/tmp"⟩
        ["cd", "/opt"] =
      { ret := 0, out := ["Current directory: /opt"], err := [], cwd := "/opt" } := by
  refine ⟨?_, ?_, ?_, ?_, ?_⟩
  · exact (claim_C6 _ ["cd"]).1 rfl
  · exact (claim_C6 _ ["cd"]).1 rfl
  · exact (claim_C6 _ ["cd", "/lit"]).2.1 "/lit" rfl
  · exact (claim_C6 _ ["cd", "/nope"]).2.2.1 "/nope" rfl rfl
  · exact (claim_C6 _ ["cd", "/opt"]).2.2.2 "/opt" rfl rfl rfl

theorem dropWhile_head_false {α : Type} (p : α → Bool) :
    ∀ (l : List α) (x : α) (xs : List α), l.dropWhile p = x :: xs → p x = false := by
  intro l
  induction l with
  | nil => intro x xs h; cases h
  | cons a t ih =>
    intro x xs h
    rw [List.dropWhile_cons] at h
    by_cases hpa : p a
    · rw [if_pos hpa] at h
      exact ih x xs h
    · rw [if_neg hpa] at h
      cases h
      simpa using hpa

/-- Refinement of the `strtok` loop: `strtokAll` computes exactly the
non-empty chunks of the line split at the delimiter characters. -/
theorem strtokAll_eq_splitOnP (s : List Char) :
    strtokAll s = (s.splitOnP isDelim).filter (fun w => !w.isEmpty) := by
  induction s using strtokAll.induct with
  | case1 =>
    simp [strtokAll]
  | case2 c t hc ih =>
    rw [List.splitOnP_cons, if_pos hc, List.filter_cons]
    simp only [List.isEmpty_nil, Bool.not_true, Bool.false_eq_true, if_false]
    rw [← ih]
    simp [strtokAll, hc]
  | case3 c t hc ih =>
    have hunfold : strtokAll (c :: t) =
        (c :: t.takeWhile fun x => !isDelim x) ::
          strtokAll (t.dropWhile fun x => !isDelim x) := by
      simp [strtokAll, hc]
    cases hd : t.dropWhile fun x => !isDelim x with
    | nil =>
      have htake : t.takeWhile (fun x => !isDelim x) = t := by
        have hta := List.takeWhile_append_dropWhile (p := fun x => !isDelim x) (l := t)
        rw [hd, List.append_nil] at hta
        exact hta
      have hall : ∀ x ∈ c :: t, ¬isDelim x = true := by
        intro x hx
        rcases List.mem_cons.mp hx with h | h
        · subst h; exact hc
        · rw [← htake] at h
          simpa using List.mem_takeWhile_imp h
      rw [List.splitOnP_eq_single _ _ hall, hunfold, hd, htake]
      simp [strtokAll]
    | cons sep r =>
      have hsep : isDelim sep = true := by
        have h := dropWhile_head_false (fun x => !isDelim x) t sep r hd
        simpa using h
      have htd : t = t.takeWhile (fun x => !isDelim x) ++ sep :: r := by
        conv_lhs => rw [← List.takeWhile_append_dropWhile
          (p := fun x => !isDelim x) (l := t), hd]
      have h1 : t.splitOnP isDelim =
          (t.takeWhile fun x => !isDelim x) :: r.splitOnP isDelim := by
        conv_lhs => rw [htd]
        exact List.splitOnP_first _ _
          (fun x hx => by simpa using List.mem_takeWhile_imp hx) sep hsep r
      rw [hd] at ih
      have h2 : (c :: t).splitOnP isDelim =
          (c :: (t.takeWhile fun x => !isDelim x)) :: r.splitOnP isDelim := by
        rw [List.splitOnP_cons, if_neg hc, h1]
        rfl
      rw [hunfold, hd, ih, h2]
      rw [List.splitOnP_cons, if_pos hsep]
      simp [List.filter_cons]

/-- On a line that splits into fewer than 64 non-empty tokens the
growth path never runs, and `cmd_parse` returns exactly the ordered
sequence of the line's non-empty tokens. -/
theorem cmd_parse_short_ok (s : List Char)
    (h : ((s.splitOnP isDelim).filter (fun w => !w.isEmpty)).length < 64) :
    cmd_parse s = some ((s.splitOnP isDelim).filter (fun w => !w.isEmpty)) := by
  rw [cmd_parse, strtokAll_eq_splitOnP, if_pos h]

/-- C8: on the claim's own example the splitting holds (trimming
"  ls   -la  " and tokenizing yields exactly ["ls", "-la"]), but the
claim's universal splitting property fails on the code: a trimmed line
of 64 whitespace-separated tokens drives `cmd_parse` into the buffer
growth path of lab.c lines 183-194, whose pointer-slot writes clobber
the copied token text (the block's line copy lies at byte offset 512,
exactly where slots 64 and up land), so no clean token vector comes
back; the embedding returns `none` for that allocator-dependent
path. -/
theorem claim_C8 :
    cmd_parse (trim_white "  ls   -la  ".data) = some ["ls".data, "-la".data] ∧
    cmd_parse (List.replicate 64 ['x', ' ']).flatten = none := by
  constructor
  · rw [cmd_parse, strtokAll_eq_splitOnP]
    decide
  · rw [cmd_parse, strtokAll_eq_splitOnP]
    decide

/-! Slot-level lemmas about the job-table scan loops. -/

theorem slotIds_cons (j : Job) (js : List Job) :
    slotIds (j :: js) =
      if j.job_id ≠ 0 then j.job_id :: slotIds js else slotIds js := by
  by_cases h : j.job_id = 0 <;> simp [slotIds, List.filter_cons, h]

theorem slotIds_append (a b : List Job) :
    slotIds (a ++ b) = slotIds a ++ slotIds b := by
  simp [slotIds, List.filter_append]

theorem mem_slotIds {j : Job} {js : List Job} (hj : j ∈ js) (h0 : j.job_id ≠ 0) :
    j.job_id ∈ slotIds js :=
  List.mem_map.mpr ⟨j, List.mem_filter.mpr ⟨hj, by simp [h0]⟩, rfl⟩

theorem addJobAux_some_decomp {n p : Int} {c : String} {b : Bool} :
    ∀ {js js' : List Job}, addJobAux n p c b js = some js' →
      ∃ l₁ e l₂, js = l₁ ++ e :: l₂ ∧ e.job_id = 0 ∧ (∀ j ∈ l₁, j.job_id ≠ 0) ∧
        js' = l₁ ++ (⟨n, p, some c, b, false⟩ : Job) :: l₂ := by
  intro js
  induction js with
  | nil => intro js' h; cases h
  | cons j rest ih =>
    intro js' h
    by_cases h0 : j.job_id = 0
    · simp only [addJobAux, if_pos h0] at h
      cases h
      exact ⟨[], j, rest, rfl, h0, by simp, rfl⟩
    · simp only [addJobAux, if_neg h0] at h
      cases hr : addJobAux n p c b rest with
      | none => rw [hr] at h; cases h
      | some rs =>
        rw [hr] at h
        cases h
        obtain ⟨l₁, e, l₂, hjs, he, hl₁, hrs⟩ := ih hr
        refine ⟨j :: l₁, e, l₂, by rw [List.cons_append, ← hjs], he, ?_, by
          rw [List.cons_append, ← hrs]⟩
        intro x hx
        rcases List.mem_cons.mp hx with rfl | hx'
        · exact h0
        · exact hl₁ x hx'

theorem addJobAux_isSome {n p : Int} {c : String} {b : Bool} :
    ∀ {js : List Job}, (∃ j ∈ js, j.job_id = 0) →
      (addJobAux n p c b js).isSome = true := by
  intro js
  induction js with
  | nil => rintro ⟨j, hj, _⟩; cases hj
  | cons j rest ih =>
    rintro ⟨x, hx, hx0⟩
    by_cases h0 : j.job_id = 0
    · simp [addJobAux, h0]
    · rcases List.mem_cons.mp hx with rfl | hx'
      · exact absurd hx0 h0
      · have := ih ⟨x, hx', hx0⟩
        simp only [addJobAux, if_neg h0]
        cases hr : addJobAux n p c b rest with
        | none => rw [hr] at this; cases this
        | some rs => simp

theorem removeJobAux_noop {i : Int} :
    ∀ {js : List Job}, (∀ j ∈ js, j.job_id ≠ i) → removeJobAux i js = js := by
  intro js
  induction js with
  | nil => intro _; rfl
  | cons j rest ih =>
    intro h
    simp only [removeJobAux, if_neg (h j (List.mem_cons_self _ _))]
    rw [ih fun x hx => h x (List.mem_cons_of_mem _ hx)]

theorem removeJobAux_found {i : Int} {e : Job} (he : e.job_id = i) :
    ∀ {l₁ : List Job} (l₂ : List Job), (∀ j ∈ l₁, j.job_id ≠ i) →
      removeJobAux i (l₁ ++ e :: l₂) = l₁ ++ emptyJob :: l₂ := by
  intro l₁
  induction l₁ with
  | nil => intro l₂ _; simp [removeJobAux, he]
  | cons j rest ih =>
    intro l₂ h
    simp only [List.cons_append, removeJobAux,
      if_neg (h j (List.mem_cons_self _ _)), List.append_eq]
    rw [ih l₂ fun x hx => h x (List.mem_cons_of_mem _ hx)]

theorem slotIds_removeJobAux_sublist (i : Int) :
    ∀ js : List Job, List.Sublist (slotIds (removeJobAux i js)) (slotIds js) := by
  intro js
  induction js with
  | nil => exact List.Sublist.refl _
  | cons j rest ih =>
    by_cases hm : j.job_id = i
    · simp only [removeJobAux, if_pos hm]
      rw [slotIds_cons, slotIds_cons, if_neg (by simp [emptyJob])]
      by_cases h0 : j.job_id = 0
      · rw [if_neg (by simp [h0])]
      · rw [if_pos h0]
        exact List.Sublist.cons _ (List.Sublist.refl _)
    · simp only [removeJobAux, if_neg hm]
      rw [slotIds_cons, slotIds_cons]
      by_cases h0 : j.job_id = 0
      · rw [if_neg (by simp [h0]), if_neg (by simp [h0])]
        exact ih
      · rw [if_pos h0, if_pos h0]
        exact List.Sublist.cons₂ _ ih

theorem updateJobsAux_eq (ex : Int → Bool) :
    ∀ js : List Job,
      updateJobsAux ex js =
        (js.map (markDone ex),
         (js.filter (shouldMark ex)).map fun j => JobLine.done j.job_id j.command) := by
  intro js
  induction js with
  | nil => rfl
  | cons j rest ih =>
    cases hm : shouldMark ex j <;>
      simp [updateJobsAux, ih, markDone, List.filter_cons, hm]

theorem printJobsAux_map_jid :
    ∀ js : List Job,
      ((js.filterMap fun j =>
          if j.job_id ≠ 0 then
            some (if j.is_done then JobLine.done j.job_id j.command
                  else JobLine.running j.job_id j.pid j.command)
          else none).map JobLine.jid) = slotIds js := by
  intro js
  induction js with
  | nil => rfl
  | cons j rest ih =>
    simp only [ne_eq, ite_not] at ih ⊢
    by_cases h0 : j.job_id = 0
    · simp [List.filterMap_cons, h0, slotIds_cons, ih]
    · by_cases hd : j.is_done <;>
        simp [List.filterMap_cons, h0, hd, slotIds_cons, ih, JobLine.jid]

theorem print_jobs_map_jid (t : JobTable) :
    (print_jobs t).map JobLine.jid = occupiedIds t :=
  printJobsAux_map_jid t.jobs

theorem filter_eq_singleton_of_nodup {jb : Job} {p : Job → Bool}
    (hp : p jb = true) (hid : ∀ j, p j = true → j.job_id = jb.job_id)
    (h0 : jb.job_id ≠ 0) :
    ∀ {js : List Job}, (slotIds js).Nodup → jb ∈ js → js.filter p = [jb] := by
  intro js
  induction js with
  | nil => intro _ h; cases h
  | cons h t ih =>
    intro hnd hmem
    rw [slotIds_cons] at hnd
    rcases List.mem_cons.mp hmem with rfl | hmem'
    · rw [if_pos h0] at hnd
      have ht : t.filter p = [] := by
        rw [List.filter_eq_nil_iff]
        intro a ha hpa
        have haid := hid a hpa
        have hmem2 : jb.job_id ∈ slotIds t := haid ▸ mem_slotIds ha (haid ▸ h0)
        exact (List.nodup_cons.mp hnd).1 hmem2
      rw [List.filter_cons, if_pos hp, ht]
    · have hph : p h = false := by
        by_contra hph
        have hph' : p h = true := by
          cases hb : p h
          · exact absurd hb hph
          · rfl
        have hhid : h.job_id = jb.job_id := hid h hph'
        have hh0 : h.job_id ≠ 0 := by rw [hhid]; exact h0
        rw [if_pos hh0] at hnd
        have : jb.job_id ∈ slotIds t := mem_slotIds hmem' h0
        exact (List.nodup_cons.mp hnd).1 (hhid ▸ this)
      have hndt : (slotIds t).Nodup := by
        by_cases hh : h.job_id = 0
        · rwa [if_neg (by simp [hh])] at hnd
        · rw [if_pos hh] at hnd
          exact (List.nodup_cons.mp hnd).2
      rw [List.filter_cons, if_neg (by simp [hph])]
      exact ih hndt hmem'

theorem markDone_job_id (ex : Int → Bool) (j : Job) :
    (markDone ex j).job_id = j.job_id := by
  simp only [markDone]
  split <;> rfl

/-- C4: when `update_job_status` observes that an occupied, not-yet-done
job's process has exited, it marks the slot done and emits the `Done`
notice for that job id exactly once; arbitrarily many repeated
subsequent calls neither change the flag again nor emit another notice
for that id. -/
theorem claim_C4 (ex : Int → Bool) (t : JobTable) (i : Nat) (jb : Job)
    (hget : t.jobs[i]? = some jb) (hocc : jb.job_id ≠ 0)
    (hnotdone : jb.is_done = false) (hex : ex jb.pid = true)
    (hnodup : (occupiedIds t).Nodup) :
    ((update_job_status ex t).1.jobs[i]? = some { jb with is_done := true }) ∧
    ((update_job_status ex t).2.filter (fun l => l.jid == jb.job_id) =
      [JobLine.done jb.job_id jb.command]) ∧
    (∀ n, (updateIter ex (update_job_status ex t).1 n).jobs[i]? =
      some { jb with is_done := true }) ∧
    (∀ n, (update_job_status ex
        (updateIter ex (update_job_status ex t).1 n)).2.filter
      (fun l => l.jid == jb.job_id) = []) := by
  have hjbmem : jb ∈ t.jobs := List.getElem?_mem hget
  have hsm : shouldMark ex jb = true := by
    simp [shouldMark, hocc, hnotdone, hex]
  have hmark : markDone ex jb = { jb with is_done := true } := by
    simp [markDone, hsm]
  have hsm2 : shouldMark ex ({ jb with is_done := true } : Job) = false := by
    simp [shouldMark]
  have hu := updateJobsAux_eq ex t.jobs
  have h1jobs : (update_job_status ex t).1.jobs = t.jobs.map (markDone ex) := by
    simp [update_job_status, hu]
  have h1out : (update_job_status ex t).2 =
      (t.jobs.filter (shouldMark ex)).map
        fun j => JobLine.done j.job_id j.command := by
    simp [update_job_status, hu]
  have huniq : t.jobs.filter (fun j => j.job_id == jb.job_id) = [jb] :=
    filter_eq_singleton_of_nodup (by simp) (fun j hj => by simpa using hj)
      hocc hnodup hjbmem
  have hmem_eq : ∀ j ∈ t.jobs, j.job_id = jb.job_id → j = jb := by
    intro j hj hjid
    have : j ∈ t.jobs.filter (fun j => j.job_id == jb.job_id) :=
      List.mem_filter.mpr ⟨hj, by simp [hjid]⟩
    rw [huniq] at this
    exact List.mem_singleton.mp this
  have hdone_mark : ∀ j : Job, j.is_done = true → (markDone ex j).is_done = true := by
    intro j hj
    simp only [markDone]
    split
    · rfl
    · exact hj
  have hmark_marked : markDone ex ({ jb with is_done := true } : Job) =
      { jb with is_done := true } := by
    simp [markDone, hsm2]
  have hjobs_eq : ∀ u : JobTable,
      (update_job_status ex u).1.jobs = u.jobs.map (markDone ex) := by
    intro u
    simp [update_job_status, updateJobsAux_eq]
  have hout_eq : ∀ u : JobTable,
      (update_job_status ex u).2 =
        (u.jobs.filter (shouldMark ex)).map
          fun j => JobLine.done j.job_id j.command := by
    intro u
    simp [update_job_status, updateJobsAux_eq]
  have hQ1 : ∀ j ∈ (update_job_status ex t).1.jobs,
      j.job_id = jb.job_id → j.is_done = true := by
    intro j hj hid
    rw [hjobs_eq t] at hj
    obtain ⟨j0, hj0, rfl⟩ := List.mem_map.mp hj
    rw [markDone_job_id] at hid
    have hj0eq : j0 = jb := hmem_eq j0 hj0 hid
    subst hj0eq
    rw [hmark]
  have hQpres : ∀ u : JobTable,
      (∀ j ∈ u.jobs, j.job_id = jb.job_id → j.is_done = true) →
      ∀ j ∈ (update_job_status ex u).1.jobs,
        j.job_id = jb.job_id → j.is_done = true := by
    intro u hQ j hj hid
    rw [hjobs_eq u] at hj
    obtain ⟨j0, hj0, rfl⟩ := List.mem_map.mp hj
    rw [markDone_job_id] at hid
    exact hdone_mark j0 (hQ j0 hj0 hid)
  have hpres : ∀ u : JobTable,
      u.jobs[i]? = some ({ jb with is_done := true } : Job) →
      (update_job_status ex u).1.jobs[i]? =
        some ({ jb with is_done := true } : Job) := by
    intro u hu
    rw [hjobs_eq u, List.getElem?_map, hu, Option.map_some', hmark_marked]
  have hnil : ∀ u : JobTable,
      (∀ j ∈ u.jobs, j.job_id = jb.job_id → j.is_done = true) →
      (update_job_status ex u).2.filter (fun l => l.jid == jb.job_id) = [] := by
    intro u hQ
    rw [hout_eq u, List.filter_map]
    have hinner : (u.jobs.filter (shouldMark ex)).filter
        ((fun l => l.jid == jb.job_id) ∘
          fun j => JobLine.done j.job_id j.command) = [] := by
      rw [List.filter_eq_nil_iff]
      intro x hx hpx
      have hxmem := (List.mem_filter.mp hx).1
      have hxsm := (List.mem_filter.mp hx).2
      simp only [Function.comp, JobLine.jid, beq_iff_eq] at hpx
      have hxdone := hQ x hxmem hpx
      simp [shouldMark, hxdone] at hxsm
    rw [hinner, List.map_nil]
  have hiter : ∀ n,
      (updateIter ex (update_job_status ex t).1 n).jobs[i]? =
        some ({ jb with is_done := true } : Job) ∧
      (∀ j ∈ (updateIter ex (update_job_status ex t).1 n).jobs,
        j.job_id = jb.job_id → j.is_done = true) := by
    intro n
    induction n with
    | zero =>
      refine ⟨?_, hQ1⟩
      show (update_job_status ex t).1.jobs[i]? = _
      rw [h1jobs, List.getElem?_map, hget, Option.map_some', hmark]
    | succ n ihn =>
      exact ⟨hpres _ ihn.1, hQpres _ ihn.2⟩
  refine ⟨?_, ?_, fun n => (hiter n).1, fun n => hnil _ (hiter n).2⟩
  · rw [h1jobs, List.getElem?_map, hget, Option.map_some', hmark]
  · rw [h1out, List.filter_map, List.filter_filter]
    have hsingle : t.jobs.filter
        (fun j => ((fun l => l.jid == jb.job_id) ∘
          fun j => JobLine.done j.job_id j.command) j && shouldMark ex j) = [jb] := by
      refine filter_eq_singleton_of_nodup ?_ ?_ hocc hnodup hjbmem
      · simp [JobLine.jid, hsm]
      · intro j hj
        simp only [Function.comp, JobLine.jid, Bool.and_eq_true, beq_iff_eq] at hj
        exact hj.1
    rw [hsingle, List.map_singleton]

/-- Witness for C4: a one-slot table whose job's process (pid 42) has
exited; the first poll marks it done and emits the single notice, the
second poll changes nothing and emits nothing. -/
theorem claim_C4_witness :
    ((update_job_status (fun p => p == 42)
        ⟨[⟨1, 42, some "sleep 1 &", true, false⟩], 2⟩).1.jobs[0]? =
      some ⟨1, 42, some "sleep 1 &", true, true⟩) ∧
    ((update_job_status (fun p => p == 42)
        ⟨[⟨1, 42, some "sleep 1 &", true, false⟩], 2⟩).2.filter
          (fun l => l.jid == 1) = [JobLine.done 1 (some "sleep 1 &")]) ∧
    ((updateIter (fun p => p == 42)
        (update_job_status (fun p => p == 42)
          ⟨[⟨1, 42, some "sleep 1 &", true, false⟩], 2⟩).1 0).jobs[0]? =
      some ⟨1, 42, some "sleep 1 &", true, true⟩) ∧
    ((update_job_status (fun p => p == 42)
        (updateIter (fun p => p == 42)
          (update_job_status (fun p => p == 42)
            ⟨[⟨1, 42, some "sleep 1 &", true, false⟩], 2⟩).1 0)).2.filter
          (fun l => l.jid == 1) = []) := by
  have h := claim_C4 (fun p => p == 42)
    ⟨[⟨1, 42, some "sleep 1 &", true, false⟩], 2⟩ 0
    ⟨1, 42, some "sleep 1 &", true, false⟩ (by decide) (by decide) (by decide)
    (by decide) (by decide)
  exact ⟨h.1, h.2.1, h.2.2.1 0, h.2.2.2 0⟩

/-- C5: on a table with a free slot (whose empty slots hold the default
reset value and whose occupied ids are below the counter, as every
reachable table satisfies), `add_job` followed by `remove_job` with the
returned id restores the slots exactly — so a previously empty table
again reports zero occupied slots — and a subsequent `print_jobs`
produces no line for that id; `remove_job` with an id present in no
slot is a no-op, not an error. -/
theorem claim_C5 (t : JobTable) (p : Int) (c : String) (b : Bool)
    (hED : ∀ j ∈ t.jobs, j.job_id = 0 → j = emptyJob)
    (hbound : ∀ i ∈ occupiedIds t, i < t.next_job_id)
    (hfree : ∃ j ∈ t.jobs, j.job_id = 0) :
    ((remove_job (add_job p c b t).1 (add_job p c b t).2).jobs = t.jobs) ∧
    (occupiedIds (remove_job (add_job p c b t).1 (add_job p c b t).2) =
      occupiedIds t) ∧
    (∀ l ∈ print_jobs (remove_job (add_job p c b t).1 (add_job p c b t).2),
      l.jid ≠ (add_job p c b t).1) ∧
    (∀ i, (∀ j ∈ t.jobs, j.job_id ≠ i) → remove_job i t = t) := by
  obtain ⟨js', hsome⟩ : ∃ js', addJobAux t.next_job_id p c b t.jobs = some js' :=
    Option.isSome_iff_exists.mp (addJobAux_isSome hfree)
  have hadd : add_job p c b t =
      (t.next_job_id, ⟨js', t.next_job_id + 1⟩) := by
    simp [add_job, hsome]
  obtain ⟨l₁, e, l₂, hjs, he0, hl₁, hjs'⟩ := addJobAux_some_decomp hsome
  have he : e = emptyJob :=
    hED e (by rw [hjs]; exact List.mem_append_right _ (List.mem_cons_self _ _)) he0
  have hl₁' : ∀ j ∈ l₁, j.job_id ≠ t.next_job_id := by
    intro j hj
    have hmem : j.job_id ∈ occupiedIds t :=
      mem_slotIds (by rw [hjs]; exact List.mem_append_left _ hj) (hl₁ j hj)
    exact ne_of_lt (hbound _ hmem)
  have hremove : removeJobAux t.next_job_id js' = t.jobs := by
    rw [hjs', removeJobAux_found (i := t.next_job_id)
      (e := ⟨t.next_job_id, p, some c, b, false⟩) rfl l₂ hl₁', hjs, he]
  have hjobs' : (remove_job t.next_job_id
      (⟨js', t.next_job_id + 1⟩ : JobTable)).jobs = t.jobs := by
    simp only [remove_job]
    exact hremove
  refine ⟨?_, ?_, ?_, ?_⟩
  · rw [hadd]
    exact hjobs'
  · rw [hadd]
    simp only [occupiedIds]
    rw [hjobs']
  · rw [hadd]
    intro l hl
    have hp : print_jobs (remove_job t.next_job_id
        (⟨js', t.next_job_id + 1⟩ : JobTable)) = print_jobs t := by
      simp only [print_jobs]
      rw [hjobs']
    rw [hp] at hl
    have hjid : l.jid ∈ occupiedIds t := by
      rw [← print_jobs_map_jid t]
      exact List.mem_map_of_mem _ hl
    exact ne_of_lt (hbound _ hjid)
  · intro i hi
    simp [remove_job, removeJobAux_noop hi]

/-- Witness for C5: a two-slot table with one occupied slot (id 3) and
one free slot; adding a job (assigned id 5) and removing id 5 restores
the table's slots, the listing shows no line for id 5, and removing an
absent id (7) is a no-op. -/
theorem claim_C5_witness :
    ((remove_job
        (add_job 9 "cat" true ⟨[emptyJob, ⟨3, 8, some "x", true, false⟩], 5⟩).1
        (add_job 9 "cat" true ⟨[emptyJob, ⟨3, 8, some "x", true, false⟩], 5⟩).2).jobs =
      [emptyJob, ⟨3, 8, some "x", true, false⟩]) ∧
    (occupiedIds (remove_job
        (add_job 9 "cat" true ⟨[emptyJob, ⟨3, 8, some "x", true, false⟩], 5⟩).1
        (add_job 9 "cat" true ⟨[emptyJob, ⟨3, 8, some "x", true, false⟩], 5⟩).2) =
      occupiedIds ⟨[emptyJob, ⟨3, 8, some "x", true, false⟩], 5⟩) ∧
    (∀ l ∈ print_jobs (remove_job
        (add_job 9 "cat" true ⟨[emptyJob, ⟨3, 8, some "x", true, false⟩], 5⟩).1
        (add_job 9 "cat" true ⟨[emptyJob, ⟨3, 8, some "x", true, false⟩], 5⟩).2),
      l.jid ≠ (add_job 9 "cat" true
        ⟨[emptyJob, ⟨3, 8, some "x", true, false⟩], 5⟩).1) ∧
    (∀ i, (∀ j ∈ ([emptyJob, ⟨3, 8, some "x", true, false⟩] : List Job),
        j.job_id ≠ i) →
      remove_job i ⟨[emptyJob, ⟨3, 8, some "x", true, false⟩], 5⟩ =
        ⟨[emptyJob, ⟨3, 8, some "x", true, false⟩], 5⟩) :=
  claim_C5 ⟨[emptyJob, ⟨3, 8, some "x", true, false⟩], 5⟩ 9 "cat" true
    (by decide) (by decide) (by decide)

theorem slotIds_replicate_empty : ∀ n, slotIds (List.replicate n emptyJob) = [] := by
  intro n
  induction n with
  | zero => rfl
  | succ n ih =>
    rw [List.replicate_succ, slotIds_cons, if_neg (by simp [emptyJob])]
    exact ih

theorem inv_init : Inv initTable := by
  refine ⟨le_refl _, ?_, ?_⟩ <;>
    simp [occupiedIds, initTable, slotIds_replicate_empty]

theorem add_inv {t : JobTable} (hInv : Inv t) (p : Int) (c : String) (b : Bool) :
    Inv (add_job p c b t).2 := by
  cases haux : addJobAux t.next_job_id p c b t.jobs with
  | none =>
    simp only [add_job, haux]
    exact hInv
  | some js' =>
    simp only [add_job, haux]
    show 1 ≤ t.next_job_id + 1 ∧
      (∀ i ∈ slotIds js', 0 < i ∧ i < t.next_job_id + 1) ∧ (slotIds js').Nodup
    obtain ⟨l₁, e, l₂, hjs, he0, hl₁, hjs'⟩ := addJobAux_some_decomp haux
    obtain ⟨hpos, hbound, hnodup⟩ := hInv
    have hold : occupiedIds t = slotIds l₁ ++ slotIds l₂ := by
      show slotIds t.jobs = _
      rw [hjs, slotIds_append, slotIds_cons, if_neg (fun h => h he0)]
    have hnew : slotIds js' = slotIds l₁ ++ t.next_job_id :: slotIds l₂ := by
      rw [hjs', slotIds_append, slotIds_cons,
        if_pos (show t.next_job_id ≠ 0 by omega)]
    refine ⟨by omega, ?_, ?_⟩
    · intro i hi
      rw [hnew] at hi
      have hi' : i = t.next_job_id ∨ i ∈ slotIds l₁ ++ slotIds l₂ := by
        rcases List.mem_append.mp hi with h | h
        · exact Or.inr (List.mem_append_left _ h)
        · rcases List.mem_cons.mp h with h | h
          · exact Or.inl h
          · exact Or.inr (List.mem_append_right _ h)
      rcases hi' with rfl | h
      · exact ⟨by omega, by omega⟩
      · have hb := hbound i (by rw [hold]; exact h)
        exact ⟨hb.1, by have := hb.2; omega⟩
    · rw [hnew, (List.perm_middle).nodup_iff, List.nodup_cons]
      refine ⟨?_, by rw [← hold]; exact hnodup⟩
      intro hmem
      have hb := hbound _ (by rw [hold]; exact hmem)
      have := hb.2
      omega

theorem remove_inv {t : JobTable} (hInv : Inv t) (i : Int) :
    Inv (remove_job i t) := by
  obtain ⟨hpos, hbound, hnodup⟩ := hInv
  have hsub : List.Sublist (slotIds (removeJobAux i t.jobs)) (slotIds t.jobs) :=
    slotIds_removeJobAux_sublist i t.jobs
  refine ⟨hpos, ?_, ?_⟩
  · intro x hx
    exact hbound x (hsub.subset hx)
  · exact hnodup.sublist hsub

theorem step_inv {t : JobTable} (hInv : Inv t) (op : Op) : Inv (step t op) := by
  cases op with
  | add p c b => exact add_inv hInv p c b
  | remove i => exact remove_inv hInv i

theorem runOps_inv : ∀ (ops : List Op) (t : JobTable), Inv t → Inv (runOps t ops) := by
  intro ops
  induction ops with
  | nil => intro t h; exact h
  | cons op rest ih =>
    intro t h
    rw [runOps, List.foldl_cons]
    exact ih (step t op) (step_inv h op)

theorem assignedIds_sorted :
    ∀ (ops : List Op) (t : JobTable), Inv t →
      (assignedIds t ops).Pairwise (· < ·) ∧
      ∀ i ∈ assignedIds t ops, t.next_job_id ≤ i := by
  intro ops
  induction ops with
  | nil => intro t _; exact ⟨List.Pairwise.nil, by simp [assignedIds]⟩
  | cons op rest ih =>
    intro t hInv
    cases op with
    | remove i =>
      have h := ih (remove_job i t) (remove_inv hInv i)
      exact ⟨h.1, fun x hx => h.2 x hx⟩
    | add p c b =>
      simp only [assignedIds]
      cases haux : addJobAux t.next_job_id p c b t.jobs with
      | none =>
        have hadd : add_job p c b t = (-1, t) := by simp [add_job, haux]
        rw [hadd]
        simp only [if_pos rfl]
        exact ⟨(ih t hInv).1, fun x hx => (ih t hInv).2 x hx⟩
      | some js' =>
        have hadd : add_job p c b t =
            (t.next_job_id, ⟨js', t.next_job_id + 1⟩) := by
          simp [add_job, haux]
        have hpos := hInv.1
        have hinv2 : Inv (⟨js', t.next_job_id + 1⟩ : JobTable) := by
          have h := add_inv hInv p c b
          rw [hadd] at h
          exact h
        obtain ⟨hpw, hge⟩ := ih _ hinv2
        rw [hadd]
        rw [if_neg (show ¬((t.next_job_id, (⟨js', t.next_job_id + 1⟩ : JobTable)).1 = -1) by
          show ¬(t.next_job_id = -1); omega)]
        constructor
        · refine List.Pairwise.cons ?_ hpw
          intro x hx
          have hx' := hge x hx
          show t.next_job_id < x
          have : t.next_job_id + 1 ≤ x := hx'
          omega
        · intro x hx
          rcases List.mem_cons.mp hx with rfl | hx'
          · exact le_refl _
          · have : t.next_job_id + 1 ≤ x := hge x hx'
            omega

/-- C3: starting from the initialized table, across any sequence of
`add_job` and `remove_job` calls the successfully assigned job ids are
strictly increasing (the session-wide counter `next_job_id` only
advances), and after every prefix of the sequence no two
simultaneously occupied slots hold the same id. -/
theorem claim_C3 (ops : List Op) :
    (assignedIds initTable ops).Pairwise (· < ·) ∧
    ∀ k, (occupiedIds (runOps initTable (ops.take k))).Nodup := by
  constructor
  · exact (assignedIds_sorted ops initTable inv_init).1
  · intro k
    exact (runOps_inv (ops.take k) initTable inv_init).2.2

end ShellLab
